import Mathlib

/-!
Shallow embedding of `src/main.py` ("largest number in PDF finder").

Modelling conventions:
* Page text is a `String`, processed as its `List Char`; all inputs of
  interest are ASCII, and Python's `str.lower` is modelled by mapping
  `Char.toLower` over the characters.
* Python floats are modelled as exact rationals (`ℚ`).  Every numeric value
  the program manipulates is produced by parsing a decimal literal and
  multiplying by powers of ten, all of which are exact.
* The regex scans of `re.findall` / `re.finditer` are embedded as explicit
  left-to-right scanning functions.  For the patterns used by the program
  the regex engine never needs to backtrack (everything after a greedy
  sub-pattern can match the empty string), so each alternative is a
  deterministic recursive matcher.  Scanning functions take an explicit
  fuel argument equal to the length of the text, which is always
  sufficient because every step consumes at least one character.
* Fallible conversions (`float(...)`) are modelled with `Option`.
-/

namespace PdfNums

/-- Python `\s` (ASCII range): space, tab, newline, carriage return,
vertical tab, form feed. -/
def isSpaceC (c : Char) : Bool :=
  c = ' ' || c = '\t' || c = '\n' || c = '\r' || c = '\x0b' || c = '\x0c'

/-- Python `\w` (ASCII range): letters, digits and underscore. -/
def isWordC (c : Char) : Bool :=
  c.isAlphanum || c = '_'

/-- Python `str.lower` on ASCII text. -/
def lowerChars (cs : List Char) : List Char :=
  cs.map Char.toLower

/-- `startsWithSeq pat s` holds when `pat` is an initial segment of `s`. -/
def startsWithSeq : List Char → List Char → Bool
  | [], _ => true
  | _ :: _, [] => false
  | p :: ps, c :: cs => p = c && startsWithSeq ps cs

/-- Python's substring test `pat in s`. -/
def containsSeq (pat : List Char) : List Char → Bool
  | [] => pat.isEmpty
  | c :: cs => startsWithSeq pat (c :: cs) || containsSeq pat cs

/-- Python slice `text[a:b]` (with `0 ≤ a ≤ b` the only case the program
produces). -/
def pySlice (cs : List Char) (a b : ℕ) : List Char :=
  (cs.take b).drop a

/-- Python `num.replace(',', '')`. -/
def stripCommas (cs : List Char) : List Char :=
  cs.filter (fun c => c != ',')

/-- Value of a (most-significant-first) digit string. -/
def digitsToNat (cs : List Char) : ℕ :=
  cs.foldl (fun n c => 10 * n + (c.toNat - 48)) 0

/-- Python `float(s)` on the fragment of inputs the program can produce:
an optional sign, a run of digits, and an optional `.`-separated fractional
digit run (at least one digit overall).  Returns `none` where `float`
would raise `ValueError`. -/
def parseNoSign (cs : List Char) : Option ℚ :=
  let ip := cs.takeWhile Char.isDigit
  let rest := cs.dropWhile Char.isDigit
  match rest with
  | [] => if ip.isEmpty then none else some (digitsToNat ip : ℚ)
  | '.' :: t =>
    let fp := t.takeWhile Char.isDigit
    let rest2 := t.dropWhile Char.isDigit
    if rest2.isEmpty && !(ip.isEmpty && fp.isEmpty) then
      some ((digitsToNat ip : ℚ) + (digitsToNat fp : ℚ) / (10 : ℚ) ^ fp.length)
    else none
  | _ => none

/-- Python `float(s)`: handle an optional leading sign. -/
def parseDecimal : List Char → Option ℚ
  | c :: t =>
    if c = '-' then (parseNoSign t).map (fun q => -q)
    else if c = '+' then parseNoSign t
    else parseNoSign (c :: t)
  | [] => parseNoSign []

/-! ### Scale Resolver (`extract_scale_factor`, src/main.py lines 32-55) -/

/-- The `scale_factors` dict, in its declaration order. -/
def scaleTable : List (List Char × ℚ) :=
  [("thousand".toList, 1000), ("million".toList, 1000000),
   ("billion".toList, 1000000000), ("trillion".toList, 1000000000000)]

/-- The phrase `f"in {word}"`. -/
def inCue (w : List Char) : List Char := 'i' :: 'n' :: ' ' :: w

/-- The abbreviation `f"(${word[0]})"`. -/
def abbrevCue (w : List Char) : List Char :=
  '(' :: '$' :: w.headD '_' :: [')']

/-- The dict iteration of `extract_scale_factor`: first entry whose cue
occurs in the (already lowered) text wins; default `1`. -/
def scaleLookup (low : List Char) : List (List Char × ℚ) → ℚ
  | [] => 1
  | (w, f) :: rest =>
    if containsSeq (inCue w) low || containsSeq (abbrevCue w) low then f
    else scaleLookup low rest

/-- `extract_scale_factor` on a character list. -/
def extract_scale_factor_chars (cs : List Char) : ℚ :=
  scaleLookup (lowerChars cs) scaleTable

/-- `extract_scale_factor` (src/main.py lines 32-55). -/
def extract_scale_factor (text : String) : ℚ :=
  extract_scale_factor_chars text.toList

/-! ### Table Boundary Detector (`detect_table_boundaries`, lines 57-68)

Regex `\n\s*(?:FY\s*\d{4}|Fiscal Year)\s*`, scanned with `re.finditer`
(non-overlapping, leftmost first).  No alternative of the pattern needs
backtracking: `\s*` always stops at the first non-space character and both
alternatives start with `F`. -/

/-- The alternative `FY\s*\d{4}`: returns the remaining text on success. -/
def tryFY : List Char → Option (List Char)
  | 'F' :: 'Y' :: t2 =>
    if ((t2.dropWhile isSpaceC).take 4).length = 4
        && ((t2.dropWhile isSpaceC).take 4).all Char.isDigit then
      some ((t2.dropWhile isSpaceC).drop 4)
    else none
  | _ => none

/-- The alternative `Fiscal Year` (a literal, case-sensitive, 11 chars). -/
def tryFiscal (t1 : List Char) : Option (List Char) :=
  if startsWithSeq ("Fiscal Year".toList) t1 then some (t1.drop 11) else none

/-- One attempted match of the boundary pattern at the head of `cs`:
`\n`, then `\s*`, then the first alternative that matches, then the
trailing `\s*`.  Returns the unconsumed rest of the text. -/
def matchBoundary : List Char → Option (List Char)
  | '\n' :: t =>
    (match tryFY (t.dropWhile isSpaceC) with
     | some r => some (r.dropWhile isSpaceC)
     | none =>
       match tryFiscal (t.dropWhile isSpaceC) with
       | some r => some (r.dropWhile isSpaceC)
       | none => none)
  | _ => none

/-- `re.finditer` scan for the boundary pattern, collecting `m.start()`
offsets.  On a match the scan resumes after the consumed characters; on a
failure it advances one character.  `fuel` bounds the recursion and is
instantiated with the text length, which every step stays below. -/
def scanBoundariesF : ℕ → List Char → ℕ → List ℕ
  | 0, _, _ => []
  | _, [], _ => []
  | fuel + 1, c :: cs, pos =>
    match matchBoundary (c :: cs) with
    | some rest => pos :: scanBoundariesF fuel rest (pos + ((c :: cs).length - rest.length))
    | none => scanBoundariesF fuel cs (pos + 1)

/-- `detect_table_boundaries` (src/main.py lines 57-68). -/
def detect_table_boundaries (text : String) : List ℕ :=
  scanBoundariesF text.toList.length text.toList 0

/-! ### Numeric Literal matching

Regex `[-+]?\d{1,3}(?:,\d{3})*(?:\.\d+)?|\d+(?:\.\d+)?`.  Everything after
each greedy sub-pattern can match the empty string, so the greedy matchers
below never backtrack.  The second alternative is kept for faithfulness,
although it can never win: wherever it matches, a digit starts the text,
so the first alternative (tried first by the regex engine) also matches. -/

/-- `\d{1,3}` — greedily take one, two or three leading digits. -/
def matchDigits13 : List Char → Option (List Char × List Char)
  | [] => none
  | c1 :: t1 =>
    if c1.isDigit then
      match t1 with
      | [] => some ([c1], [])
      | c2 :: t2 =>
        if c2.isDigit then
          match t2 with
          | [] => some ([c1, c2], [])
          | c3 :: t3 =>
            if c3.isDigit then some ([c1, c2, c3], t3)
            else some ([c1, c2], t2)
        else some ([c1], t1)
    else none

/-- `(?:,\d{3})*` — greedily consume groups of a comma and three digits. -/
def matchCommaGroups : List Char → List Char × List Char
  | ',' :: c1 :: c2 :: c3 :: rest =>
    if c1.isDigit && c2.isDigit && c3.isDigit then
      let (g, r) := matchCommaGroups rest
      (',' :: c1 :: c2 :: c3 :: g, r)
    else ([], ',' :: c1 :: c2 :: c3 :: rest)
  | cs => ([], cs)

/-- `(?:\.\d+)?` — an optional dot followed by at least one digit. -/
def matchFrac : List Char → List Char × List Char
  | '.' :: rest =>
    let ds := rest.takeWhile Char.isDigit
    if ds.isEmpty then ([], '.' :: rest)
    else ('.' :: ds, rest.dropWhile Char.isDigit)
  | cs => ([], cs)

/-- First alternative without the sign: `\d{1,3}(?:,\d{3})*(?:\.\d+)?`. -/
def matchCore (cs : List Char) : Option (List Char × List Char) :=
  match matchDigits13 cs with
  | none => none
  | some (ds, r1) =>
    some (ds ++ (matchCommaGroups r1).1 ++ (matchFrac (matchCommaGroups r1).2).1,
      (matchFrac (matchCommaGroups r1).2).2)

/-- First alternative: `[-+]?\d{1,3}(?:,\d{3})*(?:\.\d+)?`. -/
def matchA : List Char → Option (List Char × List Char)
  | c :: cs =>
    if c = '-' || c = '+' then
      match matchCore cs with
      | some (tok, rest) => some (c :: tok, rest)
      | none => none
    else matchCore (c :: cs)
  | [] => none

/-- Second alternative: `\d+(?:\.\d+)?`. -/
def matchB (cs : List Char) : Option (List Char × List Char) :=
  if (cs.takeWhile Char.isDigit).isEmpty then none
  else
    some (cs.takeWhile Char.isDigit ++ (matchFrac (cs.dropWhile Char.isDigit)).1,
      (matchFrac (cs.dropWhile Char.isDigit)).2)

/-- The whole alternation, first alternative preferred. -/
def matchNum (cs : List Char) : Option (List Char × List Char) :=
  match matchA cs with
  | some r => some r
  | none => matchB cs

/-- `re.findall` scan of `extract_all_numbers` (lines 16-30): collect the
matched number tokens left to right, non-overlapping. -/
def scanNumbersF : ℕ → List Char → List (List Char)
  | 0, _ => []
  | _, [] => []
  | fuel + 1, c :: cs =>
    match matchNum (c :: cs) with
    | some (tok, rest) => tok :: scanNumbersF fuel rest
    | none => scanNumbersF fuel cs

/-- All number tokens of a text. -/
def scanNumbers (cs : List Char) : List (List Char) :=
  scanNumbersF cs.length cs

/-- `extract_all_numbers` (src/main.py lines 16-30): parse each token with
commas removed.  The Python code calls `float` directly (it would raise on
an unparsable token); `parse_always_succeeds` below shows the conversion
succeeds on every token the scan can produce. -/
def extract_all_numbers (text : String) : List ℚ :=
  (scanNumbers text.toList).filterMap (fun tok => parseDecimal (stripCommas tok))

/-! ### Contextual Number Extractor (`extract_numbers_with_context`, lines 70-112) -/

/-- One match of `([-+]?\d{1,3}(?:,\d{3})*(?:\.\d+)?|\d+(?:\.\d+)?)\s*(\w+)?`:
the number token (`group(1)`), the optional trailing word (`group(2)`), and
`m.start()`. -/
structure CtxMatch where
  numTok : List Char
  word : Option (List Char)
  pos : ℕ
deriving DecidableEq

/-- `re.finditer` scan for the contextual pattern over the lowered text.
After the number token the match greedily consumes `\s*`, then captures a
maximal `\w+` run when one is present (`\w` includes digits). -/
def scanCtxMatchesF : ℕ → List Char → ℕ → List CtxMatch
  | 0, _, _ => []
  | _, [], _ => []
  | fuel + 1, c :: cs, pos =>
    match matchNum (c :: cs) with
    | none => scanCtxMatchesF fuel cs (pos + 1)
    | some (tok, rest1) =>
      if ((rest1.dropWhile isSpaceC).takeWhile isWordC).isEmpty then
        ⟨tok, none, pos⟩ :: scanCtxMatchesF fuel (rest1.dropWhile isSpaceC)
          (pos + tok.length + (rest1.takeWhile isSpaceC).length)
      else
        ⟨tok, some ((rest1.dropWhile isSpaceC).takeWhile isWordC), pos⟩ ::
          scanCtxMatchesF fuel
            ((rest1.dropWhile isSpaceC).drop
              ((rest1.dropWhile isSpaceC).takeWhile isWordC).length)
            (pos + tok.length + (rest1.takeWhile isSpaceC).length +
              ((rest1.dropWhile isSpaceC).takeWhile isWordC).length)

/-- All contextual matches of a (lowered) text. -/
def scanCtxMatches (cs : List Char) : List CtxMatch :=
  scanCtxMatchesF cs.length cs 0

/-- One emitted record `(original_number, scaled_number, scale_word, position)`. -/
structure NRec where
  original : ℚ
  scaled : ℚ
  scaleWord : String
  position : ℕ
deriving DecidableEq

/-- The four inline scale keywords of line 105. -/
def scaleWordsChars : List (List Char) :=
  ["thousand".toList, "million".toList, "billion".toList, "trillion".toList]

/-- Lines 104-108: multiply by `extract_scale_factor(scale_word)` when the
trailing word is a keyword, or a keyword once a trailing `'s'` is removed. -/
def applyInlineScale (x : ℚ) : Option (List Char) → ℚ
  | none => x
  | some w =>
    if w ∈ scaleWordsChars then x * extract_scale_factor_chars w
    else if w.getLast? = some 's' ∧ w.dropLast ∈ scaleWordsChars then
      x * extract_scale_factor_chars w.dropLast
    else x

/-- `scale_word or 'N/A'` of line 110. -/
def wordOrNA : Option (List Char) → String
  | none => "N/A"
  | some w => String.mk w

/-- Loop state: `(current_scale, last_boundary, pending boundary list)`. -/
abbrev CtxState := ℚ × ℕ × List ℕ

/-- Lines 97-100: if a pending boundary lies strictly before the match
position, recompute the scale from `text[last_boundary:position]`, then
advance `last_boundary` to the popped boundary. -/
def ctxStep (text : List Char) (st : CtxState) (pos : ℕ) : CtxState :=
  match st with
  | (s, lb, tb) =>
    match tb with
    | [] => (s, lb, [])
    | b :: rest =>
      if b < pos then (extract_scale_factor_chars (pySlice text lb pos), b, rest)
      else (s, lb, b :: rest)

/-- The state after processing a list of matches (parse failures skip the
boundary update, mirroring the `continue` of line 93). -/
def ctxRun (text : List Char) : List CtxMatch → CtxState → CtxState
  | [], st => st
  | m :: ms, st =>
    match parseDecimal (stripCommas m.numTok) with
    | none => ctxRun text ms st
    | some _ => ctxRun text ms (ctxStep text st m.pos)

/-- The record-emitting loop of lines 88-111. -/
def ctxLoop (text : List Char) : List CtxMatch → CtxState → List NRec
  | [], _ => []
  | m :: ms, st =>
    match parseDecimal (stripCommas m.numTok) with
    | none => ctxLoop text ms st
    | some original =>
      let st' := ctxStep text st m.pos
      let scaled := applyInlineScale (original * st'.1) m.word
      ⟨original, scaled, wordOrNA m.word, m.pos⟩ :: ctxLoop text ms st'

/-- `extract_numbers_with_context` (src/main.py lines 70-112): boundaries
come from the original text, matches from the lowered text, the state
starts at scale `1` and last boundary `0`. -/
def extract_numbers_with_context (text : String) : List NRec :=
  ctxLoop text.toList (scanCtxMatches (lowerChars text.toList))
    (1, 0, detect_table_boundaries text)

/-! ### Document processing (`process_pdf`, lines 114-141)

The PDF reading itself is external; the core loop consumes the sequence of
`(page number, page text)` pairs it produces. -/

/-- `process_pdf`: base numbers tagged with their page, and the per-page
NLP results, a page appearing only when its record list is non-empty. -/
def process_pdf (pages : List (ℕ × String)) : List (ℚ × ℕ) × List (ℕ × List NRec) :=
  (List.flatten (pages.map (fun pr => (extract_all_numbers pr.2).map (fun v => (v, pr.1)))),
   pages.filterMap (fun pr =>
     let recs := extract_numbers_with_context pr.2
     if recs.isEmpty then none else some (pr.1, recs)))

/-! ### Aggregator / Selector (`find_largest_number`,
`find_largest_nlp_number`, lines 172-200) -/

/-- Python `max` with a key over a non-empty tail, starting from `x`:
a later element replaces the current best only when strictly greater, so
ties keep the first occurrence. -/
def pyMax1 {α : Type} (key : α → ℚ) (x : α) : List α → α
  | [] => x
  | y :: ys => pyMax1 key (if key x < key y then y else x) ys

/-- Python `max(l, key=key)` as an `Option` (`none` for the empty list,
where Python raises or takes a `default`). -/
def pyMax {α : Type} (key : α → ℚ) : List α → Option α
  | [] => none
  | x :: xs => some (pyMax1 key x xs)

/-- `find_largest_number` (lines 172-182). -/
def find_largest_number (numbers : List (ℚ × ℕ)) : Option (ℚ × ℕ) :=
  if numbers.isEmpty then none else pyMax (fun x => x.1) numbers

/-- The generator `(max(page, key=lambda x: x[1]) for page in
nlp_results.values() if page)` of line 196: the first-maximal record of
each non-empty page, in page order. -/
def pageMaxima (res : List (ℕ × List NRec)) : List NRec :=
  res.filterMap (fun pr => if pr.2.isEmpty then none else pyMax (fun r => r.scaled) pr.2)

/-- `find_largest_nlp_number` (lines 184-200): the inner `max` per
non-empty page, the outer `max` over per-page maxima (`default=None`),
then the page recovered as the first page whose list contains the winning
record. -/
def find_largest_nlp_number (res : List (ℕ × List NRec)) : Option (NRec × ℕ) :=
  if res.isEmpty then none
  else
    match pyMax (fun r => r.scaled) (pageMaxima res) with
    | none => none
    | some largest =>
      match res.find? (fun pr => decide (largest ∈ pr.2)) with
      | some pr => some (largest, pr.1)
      | none => none

/-- The document's records flattened in page order with their page, the
order in which `display_results` (lines 161-163) lists them. -/
def nlpFlat (res : List (ℕ × List NRec)) : List (NRec × ℕ) :=
  List.flatten (res.map (fun pr => pr.2.map (fun r => (r, pr.1))))

/-! ### Top-10 display selection (`display_results`, lines 143-168)

`sorted(..., key=..., reverse=True)[:10]`.  Python's sort is stable; a
stable descending sort is modelled by insertion sort that inserts each
element before the first earlier-sorted element of smaller-or-equal key
(the sorted output of a stable sort is unique, so the choice of algorithm
is observationally irrelevant).  The sort key `float(str(x))` is the
identity on the values involved. -/

/-- Stable descending insertion. -/
def insertDescBy {α : Type} (key : α → ℚ) (x : α) : List α → List α
  | [] => [x]
  | y :: ys => if key y ≤ key x then x :: y :: ys else y :: insertDescBy key x ys

/-- Stable descending sort. -/
def sortDescBy {α : Type} (key : α → ℚ) : List α → List α
  | [] => []
  | x :: xs => insertDescBy key x (sortDescBy key xs)

/-- The `[:10]` selection of `display_results` under a key. -/
def pyTop10 {α : Type} (key : α → ℚ) (l : List α) : List α :=
  (sortDescBy key l).take 10

/-- Top 10 of the base `(value, page)` list, by value. -/
def top10Base (l : List (ℚ × ℕ)) : List (ℚ × ℕ) :=
  pyTop10 (fun x => x.1) l

/-- Top 10 of the flattened NLP records, by scaled value. -/
def top10Nlp (res : List (ℕ × List NRec)) : List (NRec × ℕ) :=
  pyTop10 (fun y => y.1.scaled) (nlpFlat res)

/-- Does the text (lowered) contain either cue of a keyword?  This is the
per-keyword test of line 53. -/
def hasCue (text : String) (w : List Char) : Bool :=
  containsSeq (inCue w) (lowerChars text.toList) ||
    containsSeq (abbrevCue w) (lowerChars text.toList)

/-! ## Claims -/

/-- C1.  The spec claims a literal whose captured trailing word is a scale
keyword gets `scaled = original × ambientScale × keywordFactor`.  The code
instead multiplies by `extract_scale_factor(scale_word)`, which is always
`1`: applied to the bare word, neither `"in <word>"` nor `"($x)"` occurs
in it.  Evaluations: `extract_scale_factor "million" = 1`; `"5 million"`
yields `scaled = 5` (claim: `5e6`); on a page whose consumed boundary sets
the ambient scale to `1e9`, `5 million` yields `scaled = 5e9`, not the
claimed `5 × 1e9 × 1e6`. -/
theorem inline_scale_word_multiplier_is_one :
    extract_scale_factor "million" = 1
    ∧ extract_numbers_with_context "5 million" =
        [⟨5, 5, "million", 0⟩]
    ∧ extract_numbers_with_context "in billions\nFY 2024\n5 million" =
        [⟨202, 202000000000, "4", 15⟩, ⟨5, 5000000000, "million", 20⟩] := by
  refine ⟨by decide, ?_, ?_⟩
  · have h1 : scanCtxMatches (lowerChars ("5 million").toList) =
        [⟨['5'], some ("million".toList), 0⟩] := by decide
    have h2 : detect_table_boundaries "5 million" = [] := by decide
    rw [extract_numbers_with_context, h1, h2]
    simp +decide [ctxLoop, ctxStep, applyInlineScale, wordOrNA, parseDecimal, parseNoSign,
      stripCommas, digitsToNat, scaleWordsChars, extract_scale_factor_chars, lowerChars,
      scaleLookup, scaleTable, inCue, abbrevCue, containsSeq, startsWithSeq]
  · have h1 : scanCtxMatches (lowerChars ("in billions\nFY 2024\n5 million").toList) =
        [⟨"202".toList, some ['4'], 15⟩, ⟨['5'], some ("million".toList), 20⟩] := by decide
    have h2 : detect_table_boundaries "in billions\nFY 2024\n5 million" = [11] := by decide
    rw [extract_numbers_with_context, h1, h2]
    simp +decide [ctxLoop, ctxStep, applyInlineScale, wordOrNA, parseDecimal, parseNoSign,
      stripCommas, digitsToNat, scaleWordsChars, extract_scale_factor_chars, lowerChars,
      scaleLookup, scaleTable, inCue, abbrevCue, containsSeq, startsWithSeq, pySlice]
    norm_num

/-- C2 (counterexample).  The claimed contextual scaled values `1.0e8` and
`1.505e8` for `"Revenue in millions\n100 (net) \n150.5"` are wrong: the
page has no table boundary, so the ambient scale is never recomputed and
stays `1`. -/
theorem scenario_revenue_millions_claim_false :
    ¬ ((extract_numbers_with_context "Revenue in millions\n100 (net) \n150.5").map
        NRec.scaled = [100000000, 150500000]) := by
  have h1 : scanCtxMatches (lowerChars ("Revenue in millions\n100 (net) \n150.5").toList) =
      [⟨"100".toList, none, 20⟩, ⟨"150.5".toList, none, 31⟩] := by decide
  have h2 : detect_table_boundaries "Revenue in millions\n100 (net) \n150.5" = [] := by decide
  rw [extract_numbers_with_context, h1, h2]
  simp +decide [ctxLoop, ctxStep, applyInlineScale, wordOrNA, parseDecimal, parseNoSign,
    stripCommas, digitsToNat, scaleWordsChars, extract_scale_factor_chars, lowerChars,
    scaleLookup, scaleTable, inCue, abbrevCue, containsSeq, startsWithSeq]

/-- C2 (amended).  Base extraction on the scenario text returns
`[100.0, 150.5]`, and contextual extraction returns two records with
`scaleWord = "N/A"` whose scaled values equal the originals (`100.0` and
`150.5`): with no table boundary on the page the ambient scale stays `1`,
so the `in millions` header is never consulted. -/
theorem scenario_revenue_millions_eval :
    extract_all_numbers "Revenue in millions\n100 (net) \n150.5" = [100, 301/2]
    ∧ extract_numbers_with_context "Revenue in millions\n100 (net) \n150.5" =
        [⟨100, 100, "N/A", 20⟩, ⟨301/2, 301/2, "N/A", 31⟩] := by
  constructor
  · have h1 : scanNumbers ("Revenue in millions\n100 (net) \n150.5").toList =
        ["100".toList, "150.5".toList] := by decide
    rw [extract_all_numbers, h1]
    simp +decide [parseDecimal, parseNoSign, stripCommas, digitsToNat]
    norm_num
  · have h1 : scanCtxMatches (lowerChars ("Revenue in millions\n100 (net) \n150.5").toList) =
        [⟨"100".toList, none, 20⟩, ⟨"150.5".toList, none, 31⟩] := by decide
    have h2 : detect_table_boundaries "Revenue in millions\n100 (net) \n150.5" = [] := by decide
    rw [extract_numbers_with_context, h1, h2]
    simp +decide [ctxLoop, ctxStep, applyInlineScale, wordOrNA, parseDecimal, parseNoSign,
      stripCommas, digitsToNat, scaleWordsChars, extract_scale_factor_chars, lowerChars,
      scaleLookup, scaleTable, inCue, abbrevCue, containsSeq, startsWithSeq]
    norm_num

/-- C4.  The Scale Resolver tests the cues (`in <word>`, `($<letter>)`) on
the lowered text in declaration order thousand, million, billion,
trillion, returning the factor of the first keyword whose cue occurs and
`1` when none does; in particular a text containing both `in millions`
(even in mixed case) and `in billions` resolves to `1e6`, and a cue-free
text resolves to `1`. -/
theorem scale_resolver_order_and_default (text : String) :
    (extract_scale_factor text =
      if hasCue text ("thousand".toList) then 1000
      else if hasCue text ("million".toList) then 1000000
      else if hasCue text ("billion".toList) then 1000000000
      else if hasCue text ("trillion".toList) then 1000000000000
      else 1)
    ∧ extract_scale_factor "Stated In MILLIONS and in billions" = 1000000
    ∧ extract_scale_factor "no scale cues at all" = 1 := by
  refine ⟨?_, by decide, by decide⟩
  simp only [extract_scale_factor, extract_scale_factor_chars, scaleTable, scaleLookup, hasCue]

/-- C5.  The Scale Resolver can return `1e12` only through the phrase
`in trillion`: trillion's parenthesized abbreviation `($t)` coincides with
thousand's, and thousand is tested first, so a text whose only cue is
`($t)` resolves to `1e3`. -/
theorem trillion_abbrev_shadowed_by_thousand :
    (∀ text : String, extract_scale_factor text = 1000000000000 →
      containsSeq (inCue ("trillion".toList)) (lowerChars text.toList) = true)
    ∧ extract_scale_factor "($t)" = 1000 := by
  refine ⟨?_, by decide⟩
  intro text h
  simp only [extract_scale_factor, extract_scale_factor_chars, scaleTable, scaleLookup] at h
  have habbrev : abbrevCue ("trillion".toList) = abbrevCue ("thousand".toList) := by decide
  split at h
  · exact absurd h (by decide)
  · split at h
    · exact absurd h (by decide)
    · split at h
      · exact absurd h (by decide)
      · split at h
        · rename_i hth _ _ htr
          rw [habbrev] at htr
          rcases Bool.or_eq_true_iff.mp htr with hc | hc
          · exact hc
          · exact absurd (Bool.or_eq_true_iff.mpr (Or.inr hc)) hth
        · exact absurd h (by decide)

/-- C5 witness: a text with the `in trillion` phrase makes the hypothesis
of the implication true. -/
theorem trillion_abbrev_shadowed_by_thousand_witness :
    extract_scale_factor "in trillions" = 1000000000000
    ∧ containsSeq (inCue ("trillion".toList)) (lowerChars ("in trillions").toList) = true :=
  ⟨by decide, trillion_abbrev_shadowed_by_thousand.1 "in trillions" (by decide)⟩

/-- C7.  On the empty base list and the empty NLP results mapping both
selectors return `none` (and, being total functions, raise nothing). -/
theorem selectors_empty_input_none :
    find_largest_number [] = none ∧ find_largest_nlp_number [] = none :=
  ⟨rfl, rfl⟩

/-! ### Lemmas for the boundary-drain invariants (C3) -/

theorem tryFY_length {t1 r : List Char} (h : tryFY t1 = some r) : r.length ≤ t1.length := by
  unfold tryFY at h
  split at h
  · rename_i t2
    split at h
    · injection h with h
      subst h
      have h1 : ((t2.dropWhile isSpaceC).drop 4).length ≤ (t2.dropWhile isSpaceC).length := by
        rw [List.length_drop]; omega
      have h2 : (t2.dropWhile isSpaceC).length ≤ t2.length :=
        (List.dropWhile_sublist _).length_le
      simp only [List.length_cons]
      omega
    · exact absurd h (by simp)
  · exact absurd h (by simp)

theorem tryFiscal_length {t1 r : List Char} (h : tryFiscal t1 = some r) :
    r.length ≤ t1.length := by
  unfold tryFiscal at h
  split at h
  · injection h with h
    subst h
    rw [List.length_drop]
    omega
  · exact absurd h (by simp)

theorem matchBoundary_length {cs r : List Char} (h : matchBoundary cs = some r) :
    r.length < cs.length := by
  unfold matchBoundary at h
  split at h
  · rename_i t
    have hd : (t.dropWhile isSpaceC).length ≤ t.length := (List.dropWhile_sublist _).length_le
    split at h
    · rename_i r1 hfy
      injection h with h
      subst h
      have h1 : (r1.dropWhile isSpaceC).length ≤ r1.length := (List.dropWhile_sublist _).length_le
      have h2 := tryFY_length hfy
      simp only [List.length_cons]
      omega
    · split at h
      · rename_i r1 hfi
        injection h with h
        subst h
        have h1 : (r1.dropWhile isSpaceC).length ≤ r1.length :=
          (List.dropWhile_sublist _).length_le
        have h2 := tryFiscal_length hfi
        simp only [List.length_cons]
        omega
      · exact absurd h (by simp)
  · exact absurd h (by simp)

theorem scanBoundariesF_ge :
    ∀ (fuel : ℕ) (cs : List Char) (pos : ℕ), ∀ x ∈ scanBoundariesF fuel cs pos, pos ≤ x := by
  intro fuel
  induction fuel with
  | zero => intro cs pos x hx; simp [scanBoundariesF] at hx
  | succ fuel ih =>
    intro cs pos x hx
    cases cs with
    | nil => simp [scanBoundariesF] at hx
    | cons c t =>
      rw [scanBoundariesF] at hx
      cases hm : matchBoundary (c :: t) with
      | some rest =>
        rw [hm] at hx
        rcases List.mem_cons.mp hx with h | h
        · omega
        · have := ih rest (pos + ((c :: t).length - rest.length)) x h
          omega
      | none =>
        rw [hm] at hx
        have := ih t (pos + 1) x hx
        omega

theorem scanBoundariesF_ascending :
    ∀ (fuel : ℕ) (cs : List Char) (pos : ℕ),
      List.Pairwise (· < ·) (scanBoundariesF fuel cs pos) := by
  intro fuel
  induction fuel with
  | zero => intro cs pos; simp [scanBoundariesF]
  | succ fuel ih =>
    intro cs pos
    cases cs with
    | nil => simp [scanBoundariesF]
    | cons c t =>
      rw [scanBoundariesF]
      cases hm : matchBoundary (c :: t) with
      | some rest =>
        refine List.Pairwise.cons ?_ (ih rest _)
        intro x hx
        have h1 := scanBoundariesF_ge fuel rest (pos + ((c :: t).length - rest.length)) x hx
        have h2 := matchBoundary_length hm
        omega
      | none => exact ih t (pos + 1)

theorem detect_table_boundaries_ascending (text : String) :
    List.Pairwise (· < ·) (detect_table_boundaries text) :=
  scanBoundariesF_ascending _ _ _

/-- One pass of `ctxStep` pops at most one boundary, from the front. -/
theorem ctxStep_pending (text : List Char) (st : CtxState) (pos : ℕ) :
    ∃ k, k ≤ 1 ∧ (ctxStep text st pos).2.2 = st.2.2.drop k := by
  obtain ⟨s, lb, tb⟩ := st
  cases tb with
  | nil => exact ⟨0, by omega, rfl⟩
  | cons b rest =>
    by_cases hb : b < pos
    · exact ⟨1, le_refl 1, by simp [ctxStep, hb]⟩
    · exact ⟨0, by omega, by simp [ctxStep, hb]⟩

/-- Across any run, the pending list is a front-drop of the initial one,
by at most one element per processed match. -/
theorem ctxRun_pending (text : List Char) :
    ∀ (ms : List CtxMatch) (st : CtxState),
      ∃ n, n ≤ ms.length ∧ (ctxRun text ms st).2.2 = st.2.2.drop n := by
  intro ms
  induction ms with
  | nil => intro st; exact ⟨0, by omega, by simp [ctxRun]⟩
  | cons m ms ih =>
    intro st
    rw [ctxRun]
    cases hp : parseDecimal (stripCommas m.numTok) with
    | none =>
      obtain ⟨n, hn, hd⟩ := ih st
      exact ⟨n, by simp [List.length_cons]; omega, hd⟩
    | some q =>
      obtain ⟨n, hn, hd⟩ := ih (ctxStep text st m.pos)
      obtain ⟨k, hk, hkd⟩ := ctxStep_pending text st m.pos
      refine ⟨k + n, by simp [List.length_cons]; omega, ?_⟩
      rw [hd, hkd, List.drop_drop]

theorem ctxRun_append (text : List Char) :
    ∀ (ms1 ms2 : List CtxMatch) (st : CtxState),
      ctxRun text (ms1 ++ ms2) st = ctxRun text ms2 (ctxRun text ms1 st) := by
  intro ms1
  induction ms1 with
  | nil => intro ms2 st; simp [ctxRun]
  | cons m ms ih =>
    intro ms2 st
    rw [List.cons_append, ctxRun, ctxRun]
    cases parseDecimal (stripCommas m.numTok) with
    | none => exact ih ms2 st
    | some q => exact ih ms2 _

/-- C3.  During contextual extraction the pending boundary list is only
ever drained from the front, at most one boundary per literal match (any
prefix/suffix split of the match list drains at most `|suffix|` more
boundaries than the prefix alone, and the drained count never decreases);
the boundary list itself is strictly ascending; and a consuming step
computes the new scale with the Scale Resolver over
`text[lastBoundary:position]` before `lastBoundary` becomes the consumed
boundary, while a non-consuming step leaves the state unchanged. -/
theorem boundary_drain_invariants (text : String) (ms1 ms2 : List CtxMatch)
    (hsplit : scanCtxMatches (lowerChars text.toList) = ms1 ++ ms2) :
    (∃ n1 n2, n1 ≤ n2 ∧ n2 ≤ n1 + ms2.length ∧
      (ctxRun text.toList ms1 (1, 0, detect_table_boundaries text)).2.2 =
        (detect_table_boundaries text).drop n1 ∧
      (ctxRun text.toList (scanCtxMatches (lowerChars text.toList))
          (1, 0, detect_table_boundaries text)).2.2 =
        (detect_table_boundaries text).drop n2)
    ∧ List.Pairwise (· < ·) (detect_table_boundaries text)
    ∧ (∀ (s : ℚ) (lb b : ℕ) (rest : List ℕ) (pos : ℕ), b < pos →
        ctxStep text.toList (s, lb, b :: rest) pos =
          (extract_scale_factor_chars (pySlice text.toList lb pos), b, rest))
    ∧ (∀ (s : ℚ) (lb b : ℕ) (rest : List ℕ) (pos : ℕ), ¬ b < pos →
        ctxStep text.toList (s, lb, b :: rest) pos = (s, lb, b :: rest)) := by
  refine ⟨?_, detect_table_boundaries_ascending text, ?_, ?_⟩
  · obtain ⟨n1, hn1, hd1⟩ := ctxRun_pending text.toList ms1 (1, 0, detect_table_boundaries text)
    obtain ⟨n2, hn2, hd2⟩ := ctxRun_pending text.toList ms2
      (ctxRun text.toList ms1 (1, 0, detect_table_boundaries text))
    refine ⟨n1, n1 + n2, by omega, by omega, hd1, ?_⟩
    rw [hsplit, ctxRun_append, hd2, hd1, List.drop_drop, Nat.add_comm]
  · intro s lb b rest pos hb
    simp [ctxStep, hb]
  · intro s lb b rest pos hb
    simp [ctxStep, hb]

/-- C3 witness: on a page with one boundary and two matches, the first
match drains the boundary and the second leaves the pending list empty. -/
theorem boundary_drain_invariants_witness :
    scanCtxMatches (lowerChars ("in billions\nFY 2024\n5 million").toList) =
      [⟨"202".toList, some ['4'], 15⟩] ++ [⟨['5'], some ("million".toList), 20⟩]
    ∧ ((∃ n1 n2, n1 ≤ n2 ∧ n2 ≤ n1 + ([⟨['5'], some ("million".toList), 20⟩] :
          List CtxMatch).length ∧
        (ctxRun ("in billions\nFY 2024\n5 million").toList
            [⟨"202".toList, some ['4'], 15⟩]
            (1, 0, detect_table_boundaries "in billions\nFY 2024\n5 million")).2.2 =
          (detect_table_boundaries "in billions\nFY 2024\n5 million").drop n1 ∧
        (ctxRun ("in billions\nFY 2024\n5 million").toList
            (scanCtxMatches (lowerChars ("in billions\nFY 2024\n5 million").toList))
            (1, 0, detect_table_boundaries "in billions\nFY 2024\n5 million")).2.2 =
          (detect_table_boundaries "in billions\nFY 2024\n5 million").drop n2)
      ∧ List.Pairwise (· < ·) (detect_table_boundaries "in billions\nFY 2024\n5 million")
      ∧ (∀ (s : ℚ) (lb b : ℕ) (rest : List ℕ) (pos : ℕ), b < pos →
          ctxStep ("in billions\nFY 2024\n5 million").toList (s, lb, b :: rest) pos =
            (extract_scale_factor_chars
              (pySlice ("in billions\nFY 2024\n5 million").toList lb pos), b, rest))
      ∧ (∀ (s : ℚ) (lb b : ℕ) (rest : List ℕ) (pos : ℕ), ¬ b < pos →
          ctxStep ("in billions\nFY 2024\n5 million").toList (s, lb, b :: rest) pos =
            (s, lb, b :: rest))) :=
  ⟨by decide,
   boundary_drain_invariants "in billions\nFY 2024\n5 million"
     [⟨"202".toList, some ['4'], 15⟩] [⟨['5'], some ("million".toList), 20⟩] (by decide)⟩

/-- C10.  A page whose contextual extraction yields no record does not
appear in the NLP results (no key at all), while every base literal of
every page appears, tagged with its page, in the base number list. -/
theorem empty_context_pages_absent (pages : List (ℕ × String)) :
    (∀ p : ℕ, (∃ recs, (p, recs) ∈ (process_pdf pages).2) ↔
      ∃ txt, (p, txt) ∈ pages ∧ extract_numbers_with_context txt ≠ [])
    ∧ (∀ pr ∈ pages, ∀ v ∈ extract_all_numbers pr.2,
        (v, pr.1) ∈ (process_pdf pages).1) := by
  constructor
  · intro p
    constructor
    · rintro ⟨recs, hmem⟩
      rw [process_pdf] at hmem
      obtain ⟨pr, hpr, hf⟩ := List.mem_filterMap.mp hmem
      simp only at hf
      split at hf
      · exact absurd hf (by simp)
      · rename_i hne
        injection hf with hf
        rcases Prod.mk.injEq .. ▸ hf with h
        refine ⟨pr.2, ?_, ?_⟩
        · have : pr = (p, pr.2) := by
            cases pr
            simp_all
          rw [← this]; exact hpr
        · simpa using hne
    · rintro ⟨txt, hmem, hne⟩
      refine ⟨extract_numbers_with_context txt, ?_⟩
      rw [process_pdf]
      refine List.mem_filterMap.mpr ⟨(p, txt), hmem, ?_⟩
      simp only
      rw [if_neg (by simpa using hne)]
  · intro pr hpr v hv
    rw [process_pdf]
    simp only
    refine List.mem_flatten.mpr ⟨(extract_all_numbers pr.2).map (fun v => (v, pr.1)), ?_, ?_⟩
    · exact List.mem_map.mpr ⟨pr, hpr, rfl⟩
    · exact List.mem_map.mpr ⟨v, hv, rfl⟩

/-- C10 witness: a two-page document where page 1 has no numeric literal
(so no NLP key) and page 2 contributes its base literal. -/
theorem empty_context_pages_absent_witness :
    ((2, "5 cats") ∈ [((1 : ℕ), "no digits"), (2, "5 cats")])
    ∧ ((5 : ℚ), 2) ∈ (process_pdf [((1 : ℕ), "no digits"), (2, "5 cats")]).1 :=
  ⟨by decide,
   (empty_context_pages_absent [((1 : ℕ), "no digits"), (2, "5 cats")]).2
     (2, "5 cats") (by decide) 5 (by decide)⟩

/-! ### Lemmas for parse totality (C8)

A token produced by the number matcher always has the shape
`sign? digits frac?` once commas are stripped, and the float conversion
succeeds on every list of that shape. -/

theorem digit_ne_comma {c : Char} (h : c.isDigit = true) : (c != ',') = true := by
  by_contra hne
  have hc : c = ',' := by
    simpa using hne
  subst hc
  exact absurd h (by decide)

theorem all_digits_stripCommas {cs : List Char} (h : cs.all Char.isDigit = true) :
    stripCommas cs = cs :=
  List.filter_eq_self.mpr fun a ha => digit_ne_comma (List.all_eq_true.mp h a ha)

theorem takeWhile_append_all {p : Char → Bool} :
    ∀ {a : List Char}, a.all p = true → ∀ b, (a ++ b).takeWhile p = a ++ b.takeWhile p := by
  intro a
  induction a with
  | nil => intro _ b; simp
  | cons x t ih =>
    intro h b
    rw [List.all_cons, Bool.and_eq_true] at h
    simp only [List.cons_append, List.takeWhile_cons, h.1, ih h.2 b, if_true]

theorem dropWhile_append_all {p : Char → Bool} :
    ∀ {a : List Char}, a.all p = true → ∀ b, (a ++ b).dropWhile p = b.dropWhile p := by
  intro a
  induction a with
  | nil => intro _ b; simp
  | cons x t ih =>
    intro h b
    rw [List.all_cons, Bool.and_eq_true] at h
    simp only [List.cons_append, List.dropWhile_cons, h.1, if_true, ih h.2 b]

theorem takeWhile_all_self {p : Char → Bool} {a : List Char} (h : a.all p = true) :
    a.takeWhile p = a := by
  have := takeWhile_append_all h []
  simpa using this

theorem dropWhile_all_nil {p : Char → Bool} {a : List Char} (h : a.all p = true) :
    a.dropWhile p = [] := by
  have := dropWhile_append_all h []
  simpa using this

/-- Shape of the optional fractional part of a token. -/
def FracShape (f : List Char) : Prop :=
  f = [] ∨ ∃ fd, f = '.' :: fd ∧ fd ≠ [] ∧ fd.all Char.isDigit = true

theorem fracShape_stripCommas {f : List Char} (h : FracShape f) : stripCommas f = f := by
  rcases h with h | ⟨fd, hf, _, hd⟩
  · subst h; rfl
  · subst hf
    show List.filter _ ('.' :: fd) = _
    rw [List.filter_cons_of_pos (by decide)]
    exact congrArg (List.cons '.') (all_digits_stripCommas hd)

/-- Shape of a whole matched token once commas are removed. -/
def GoodTok (tok : List Char) : Prop :=
  ∃ sgn ds f, stripCommas tok = sgn ++ (ds ++ f) ∧
    (sgn = [] ∨ sgn = ['-'] ∨ sgn = ['+']) ∧
    ds ≠ [] ∧ ds.all Char.isDigit = true ∧ FracShape f

theorem matchFrac_shape (cs : List Char) : FracShape (matchFrac cs).1 := by
  unfold matchFrac
  split
  · rename_i rest
    by_cases h : (rest.takeWhile Char.isDigit).isEmpty
    · rw [if_pos h]; exact Or.inl rfl
    · rw [if_neg h]
      refine Or.inr ⟨rest.takeWhile Char.isDigit, rfl, by simpa using h, ?_⟩
      exact List.all_eq_true.mpr fun a ha => List.mem_takeWhile_imp ha
  · exact Or.inl rfl

theorem matchCommaGroups_strip (cs : List Char) :
    (stripCommas (matchCommaGroups cs).1).all Char.isDigit = true := by
  induction cs using matchCommaGroups.induct with
  | case1 c1 c2 c3 rest h g r heq ih =>
    rw [matchCommaGroups, if_pos h, heq]
    rw [heq] at ih
    simp only [Bool.and_eq_true] at h
    simpa +decide [stripCommas, List.filter_cons, List.all_cons, digit_ne_comma h.1.1,
      digit_ne_comma h.1.2, digit_ne_comma h.2, h.1.1, h.1.2, h.2] using ih
  | case2 c1 c2 c3 rest h =>
    rw [matchCommaGroups, if_neg h]
    rfl
  | case3 cs h =>
    rw [matchCommaGroups.eq_def]
    split
    · rename_i c1 c2 c3 rest
      exact absurd rfl (h c1 c2 c3 rest)
    · rfl

theorem matchDigits13_spec {cs ds r : List Char} (h : matchDigits13 cs = some (ds, r)) :
    ds ≠ [] ∧ ds.all Char.isDigit = true := by
  unfold matchDigits13 at h
  split at h
  · exact absurd h (by simp)
  · rename_i c1 t1
    split at h
    · rename_i h1
      split at h
      · rw [Option.some.injEq, Prod.mk.injEq] at h
        obtain ⟨hds, -⟩ := h
        subst hds
        exact ⟨by simp, by simp [h1]⟩
      · rename_i c2 t2
        split at h
        · rename_i h2
          split at h
          · rw [Option.some.injEq, Prod.mk.injEq] at h
            obtain ⟨hds, -⟩ := h
            subst hds
            exact ⟨by simp, by simp [h1, h2]⟩
          · rename_i c3 t3
            split at h
            · rename_i h3
              rw [Option.some.injEq, Prod.mk.injEq] at h
              obtain ⟨hds, -⟩ := h
              subst hds
              exact ⟨by simp, by simp [h1, h2, h3]⟩
            · rw [Option.some.injEq, Prod.mk.injEq] at h
              obtain ⟨hds, -⟩ := h
              subst hds
              exact ⟨by simp, by simp [h1, h2]⟩
        · rw [Option.some.injEq, Prod.mk.injEq] at h
          obtain ⟨hds, -⟩ := h
          subst hds
          exact ⟨by simp, by simp [h1]⟩
    · exact absurd h (by simp)

theorem matchCore_good {cs tok r : List Char} (h : matchCore cs = some (tok, r)) :
    ∃ ds f, stripCommas tok = ds ++ f ∧ ds ≠ [] ∧ ds.all Char.isDigit = true ∧ FracShape f := by
  unfold matchCore at h
  cases hd : matchDigits13 cs with
  | none => rw [hd] at h; exact absurd h (by simp)
  | some p =>
    obtain ⟨ds, r1⟩ := p
    rw [hd] at h
    rw [Option.some.injEq, Prod.mk.injEq] at h
    obtain ⟨htok, -⟩ := h
    subst htok
    obtain ⟨hne, hall⟩ := matchDigits13_spec hd
    have hg := matchCommaGroups_strip r1
    have hf := matchFrac_shape (matchCommaGroups r1).2
    refine ⟨ds ++ stripCommas (matchCommaGroups r1).1,
      (matchFrac (matchCommaGroups r1).2).1, ?_, ?_, ?_, hf⟩
    · show List.filter _ (ds ++ (matchCommaGroups r1).1 ++ _) = _
      rw [List.filter_append, List.filter_append, List.append_assoc]
      show stripCommas ds ++ (stripCommas (matchCommaGroups r1).1 ++
        stripCommas (matchFrac (matchCommaGroups r1).2).1) = _
      rw [all_digits_stripCommas hall, fracShape_stripCommas hf, ← List.append_assoc]
    · simpa using fun h _ => hne h
    · rw [List.all_append, Bool.and_eq_true]
      exact ⟨hall, hg⟩

theorem matchA_good {cs tok r : List Char} (h : matchA cs = some (tok, r)) : GoodTok tok := by
  unfold matchA at h
  split at h
  · rename_i c cs'
    by_cases hc : c = '-' || c = '+'
    · rw [if_pos hc] at h
      cases hcore : matchCore cs' with
      | none => rw [hcore] at h; exact absurd h (by simp)
      | some p =>
        obtain ⟨tok', rest'⟩ := p
        rw [hcore] at h
        rw [Option.some.injEq, Prod.mk.injEq] at h
        obtain ⟨htok, -⟩ := h
        subst htok
        obtain ⟨ds, f, hstrip, hne, hall, hf⟩ := matchCore_good hcore
        have hcor : c = '-' ∨ c = '+' := by simpa using hc
        have hcomma : (c != ',') = true := by
          rcases hcor with h | h <;> subst h <;> decide
        refine ⟨[c], ds, f, ?_, ?_, hne, hall, hf⟩
        · show List.filter _ (c :: tok') = _
          rw [List.filter_cons, if_pos hcomma]
          show c :: stripCommas tok' = _
          rw [hstrip]
          rfl
        · rcases hcor with h | h
          · exact Or.inr (Or.inl (by rw [h]))
          · exact Or.inr (Or.inr (by rw [h]))
    · rw [if_neg hc] at h
      obtain ⟨ds, f, hstrip, hne, hall, hf⟩ := matchCore_good h
      exact ⟨[], ds, f, hstrip, Or.inl rfl, hne, hall, hf⟩
  · exact absurd h (by simp)

theorem matchB_good {cs tok r : List Char} (h : matchB cs = some (tok, r)) : GoodTok tok := by
  unfold matchB at h
  split at h
  · exact absurd h (by simp)
  · rename_i hds
    rw [Option.some.injEq, Prod.mk.injEq] at h
    obtain ⟨htok, -⟩ := h
    subst htok
    have hall : (cs.takeWhile Char.isDigit).all Char.isDigit = true :=
      List.all_eq_true.mpr fun a ha => List.mem_takeWhile_imp ha
    have hf := matchFrac_shape (cs.dropWhile Char.isDigit)
    refine ⟨[], cs.takeWhile Char.isDigit, (matchFrac (cs.dropWhile Char.isDigit)).1,
      ?_, Or.inl rfl, by simpa using hds, hall, hf⟩
    show List.filter _ (_ ++ _) = _
    rw [List.filter_append]
    show stripCommas _ ++ stripCommas _ = _
    rw [all_digits_stripCommas hall, fracShape_stripCommas hf]
    rfl

theorem matchNum_good {cs tok r : List Char} (h : matchNum cs = some (tok, r)) : GoodTok tok := by
  unfold matchNum at h
  cases ha : matchA cs with
  | some p => rw [ha] at h; cases h; exact matchA_good ha
  | none => rw [ha] at h; exact matchB_good h

theorem parse_of_shape {ds f : List Char} (hne : ds ≠ []) (hds : ds.all Char.isDigit = true)
    (hf : FracShape f) : (parseNoSign (ds ++ f)).isSome = true := by
  have hipne : ¬ ds.isEmpty = true := by simpa using hne
  rcases hf with hf | ⟨fd, hf, hfdne, hfd⟩
  · subst hf
    rw [parseNoSign]
    simp only [List.append_nil, takeWhile_all_self hds, dropWhile_all_nil hds]
    rw [if_neg hipne]
    rfl
  · subst hf
    rw [parseNoSign]
    simp only [takeWhile_append_all hds, dropWhile_append_all hds]
    have h1 : List.takeWhile Char.isDigit ('.' :: fd) = [] := by
      rw [List.takeWhile_cons_of_neg (by decide)]
    have h2 : List.dropWhile Char.isDigit ('.' :: fd) = '.' :: fd := by
      rw [List.dropWhile_cons_of_neg (by decide)]
    rw [h1, h2]
    simp only [takeWhile_all_self hfd, dropWhile_all_nil hfd]
    rw [if_pos ?_]
    · rfl
    · simp only [List.isEmpty_nil, List.append_nil, Bool.true_and]
      rw [Bool.not_eq_true']
      rw [Bool.and_eq_false_iff]
      left
      simpa using hipne

theorem parse_good {tok : List Char} (h : GoodTok tok) :
    (parseDecimal (stripCommas tok)).isSome = true := by
  obtain ⟨sgn, ds, f, hstrip, hsgn, hne, hall, hf⟩ := h
  rw [hstrip]
  have hd1 : ∀ c t, ds = c :: t → c.isDigit = true := by
    intro c t hct
    subst hct
    have h2 := hall
    rw [List.all_cons, Bool.and_eq_true] at h2
    exact h2.1
  rcases hsgn with hs | hs | hs
  · subst hs
    rw [List.nil_append]
    cases hds : ds with
    | nil => exact absurd hds hne
    | cons c t =>
      have hc := hd1 c t hds
      subst hds
      rw [List.cons_append, parseDecimal.eq_def]
      dsimp only
      rw [if_neg (by rintro rfl; exact absurd hc (by decide)),
        if_neg (by rintro rfl; exact absurd hc (by decide))]
      exact parse_of_shape hne hall hf
  · subst hs
    rw [List.cons_append, List.nil_append, parseDecimal.eq_def]
    dsimp only
    rw [if_pos rfl]
    have hp := parse_of_shape hne hall hf
    cases hps : parseNoSign (ds ++ f) with
    | none => rw [hps] at hp; exact absurd hp (by simp)
    | some q => rfl
  · subst hs
    rw [List.cons_append, List.nil_append, parseDecimal.eq_def]
    dsimp only
    rw [if_neg (by decide), if_pos rfl]
    exact parse_of_shape hne hall hf

theorem scanNumbersF_good :
    ∀ (fuel : ℕ) (cs : List Char), ∀ tok ∈ scanNumbersF fuel cs, GoodTok tok := by
  intro fuel
  induction fuel with
  | zero => intro cs tok htok; simp [scanNumbersF] at htok
  | succ fuel ih =>
    intro cs tok htok
    cases cs with
    | nil => simp [scanNumbersF] at htok
    | cons c t =>
      rw [scanNumbersF] at htok
      cases hm : matchNum (c :: t) with
      | some p =>
        obtain ⟨tk, rest⟩ := p
        rw [hm] at htok
        rcases List.mem_cons.mp htok with h | h
        · subst h; exact matchNum_good hm
        · exact ih rest tok h
      | none =>
        rw [hm] at htok
        exact ih t tok htok

theorem scanCtxMatchesF_good :
    ∀ (fuel : ℕ) (cs : List Char) (pos : ℕ), ∀ m ∈ scanCtxMatchesF fuel cs pos,
      GoodTok m.numTok := by
  intro fuel
  induction fuel with
  | zero => intro cs pos m hm; simp [scanCtxMatchesF] at hm
  | succ fuel ih =>
    intro cs pos m hm
    cases cs with
    | nil => simp [scanCtxMatchesF] at hm
    | cons c t =>
      rw [scanCtxMatchesF] at hm
      split at hm
      · exact ih t (pos + 1) m hm
      · rename_i tok rest1 heq
        split at hm
        · rcases List.mem_cons.mp hm with h | h
          · subst h; exact matchNum_good heq
          · exact ih _ _ m h
        · rcases List.mem_cons.mp hm with h | h
          · subst h; exact matchNum_good heq
          · exact ih _ _ m h

/-- C8.  Every token the number scan produces converts to a float once
commas are stripped (so the direct `float(...)` of `extract_all_numbers`
never raises), every value it returns is such a conversion of a matched
token, and every token captured by the contextual scan parses too (so the
`except ValueError: continue` skip never aborts the scan). -/
theorem parse_always_succeeds :
    (∀ (text : String), ∀ tok ∈ scanNumbers text.toList,
      (parseDecimal (stripCommas tok)).isSome = true)
    ∧ (∀ (text : String), ∀ v ∈ extract_all_numbers text,
      ∃ tok, tok ∈ scanNumbers text.toList ∧ parseDecimal (stripCommas tok) = some v)
    ∧ (∀ (text : String), ∀ m ∈ scanCtxMatches (lowerChars text.toList),
      (parseDecimal (stripCommas m.numTok)).isSome = true) := by
  refine ⟨?_, ?_, ?_⟩
  · intro text tok htok
    exact parse_good (scanNumbersF_good _ _ tok htok)
  · intro text v hv
    rw [extract_all_numbers] at hv
    obtain ⟨tok, htok, hp⟩ := List.mem_filterMap.mp hv
    exact ⟨tok, htok, hp⟩
  · intro text m hm
    exact parse_good (scanCtxMatchesF_good _ _ _ m hm)

/-- C8 witness: the comma-grouped token of `" 1,234 x"` is scanned and
parses. -/
theorem parse_always_succeeds_witness :
    ("1,234".toList ∈ scanNumbers (" 1,234 x").toList)
    ∧ (parseDecimal (stripCommas ("1,234".toList))).isSome = true :=
  ⟨by decide, parse_always_succeeds.1 " 1,234 x" ("1,234".toList) (by decide)⟩

/-! ### Lemmas for the stable top-10 selection (C9) -/

theorem insertDescBy_length {α : Type} (key : α → ℚ) (x : α) :
    ∀ l : List α, (insertDescBy key x l).length = l.length + 1 := by
  intro l
  induction l with
  | nil => rfl
  | cons y ys ih =>
    rw [insertDescBy]
    by_cases h : key y ≤ key x
    · rw [if_pos h]; rfl
    · rw [if_neg h]
      simp only [List.length_cons, ih]

theorem sortDescBy_length {α : Type} (key : α → ℚ) :
    ∀ l : List α, (sortDescBy key l).length = l.length := by
  intro l
  induction l with
  | nil => rfl
  | cons x xs ih =>
    rw [sortDescBy, insertDescBy_length, ih]
    rfl

theorem insertDescBy_perm {α : Type} (key : α → ℚ) (x : α) :
    ∀ l : List α, (insertDescBy key x l).Perm (x :: l) := by
  intro l
  induction l with
  | nil => rfl
  | cons y ys ih =>
    rw [insertDescBy]
    by_cases h : key y ≤ key x
    · rw [if_pos h]
    · rw [if_neg h]
      exact (List.Perm.cons y ih).trans (List.Perm.swap x y ys)

theorem sortDescBy_perm {α : Type} (key : α → ℚ) :
    ∀ l : List α, (sortDescBy key l).Perm l := by
  intro l
  induction l with
  | nil => rfl
  | cons x xs ih =>
    rw [sortDescBy]
    exact (insertDescBy_perm key x (sortDescBy key xs)).trans (List.Perm.cons x ih)

theorem mem_insertDescBy {α : Type} (key : α → ℚ) (x : α) {l : List α} {z : α}
    (h : z ∈ insertDescBy key x l) : z = x ∨ z ∈ l :=
  List.mem_cons.mp ((insertDescBy_perm key x l).subset h)

theorem insertDescBy_pairwise {α : Type} (key : α → ℚ) (x : α) :
    ∀ {l : List α}, List.Pairwise (fun a b => key b ≤ key a) l →
      List.Pairwise (fun a b => key b ≤ key a) (insertDescBy key x l) := by
  intro l
  induction l with
  | nil => intro _; exact List.pairwise_singleton _ x
  | cons y ys ih =>
    intro h
    rw [List.pairwise_cons] at h
    rw [insertDescBy]
    by_cases hyx : key y ≤ key x
    · rw [if_pos hyx]
      refine List.Pairwise.cons ?_ (List.Pairwise.cons h.1 h.2)
      intro z hz
      rcases List.mem_cons.mp hz with hz | hz
      · subst hz; exact hyx
      · exact le_trans (h.1 z hz) hyx
    · rw [if_neg hyx]
      refine List.Pairwise.cons ?_ (ih h.2)
      intro z hz
      rcases mem_insertDescBy key x hz with hz | hz
      · subst hz; exact le_of_lt (lt_of_not_le hyx)
      · exact h.1 z hz

theorem sortDescBy_pairwise {α : Type} (key : α → ℚ) :
    ∀ l : List α, List.Pairwise (fun a b => key b ≤ key a) (sortDescBy key l) := by
  intro l
  induction l with
  | nil => exact List.Pairwise.nil
  | cons x xs ih =>
    rw [sortDescBy]
    exact insertDescBy_pairwise key x ih

theorem insertDescBy_filter {α : Type} (key : α → ℚ) (x : α) (v : ℚ) :
    ∀ l : List α, (insertDescBy key x l).filter (fun a => decide (key a = v)) =
      if key x = v then x :: l.filter (fun a => decide (key a = v))
      else l.filter (fun a => decide (key a = v)) := by
  intro l
  induction l with
  | nil =>
    by_cases hx : key x = v
    · rw [if_pos hx, insertDescBy, List.filter_cons, if_pos (by simpa using hx)]
    · rw [if_neg hx, insertDescBy, List.filter_cons, if_neg (by simpa using hx)]
  | cons y ys ih =>
    rw [insertDescBy]
    by_cases hyx : key y ≤ key x
    · rw [if_pos hyx]
      by_cases hx : key x = v
      · rw [if_pos hx, List.filter_cons, if_pos (by simpa using hx)]
      · rw [if_neg hx, List.filter_cons, if_neg (by simpa using hx)]
    · rw [if_neg hyx]
      have hxy : key x < key y := lt_of_not_le hyx
      by_cases hx : key x = v
      · rw [if_pos hx]
        have hy : ¬ key y = v := by
          intro hy
          rw [hx] at hxy
          rw [hy] at hxy
          exact lt_irrefl v hxy
        rw [List.filter_cons, if_neg (by simpa using hy), ih, if_pos hx,
          List.filter_cons, if_neg (by simpa using hy)]
      · rw [if_neg hx, List.filter_cons, ih, if_neg hx, List.filter_cons]

theorem sortDescBy_filter {α : Type} (key : α → ℚ) (v : ℚ) :
    ∀ l : List α, (sortDescBy key l).filter (fun a => decide (key a = v)) =
      l.filter (fun a => decide (key a = v)) := by
  intro l
  induction l with
  | nil => rfl
  | cons x xs ih =>
    rw [sortDescBy, insertDescBy_filter, List.filter_cons]
    by_cases hx : key x = v
    · rw [if_pos hx, if_pos (by simpa using hx), ih]
    · rw [if_neg hx, if_neg (by simpa using hx), ih]

/-- C9.  The top-10 selection returns exactly `min 10 |input|` entries, a
multiset-sub-collection of the input (its output extends to a permutation
of the input, so nothing is duplicated or invented), sorted descending by
the key, and stable: for each key value, the selected entries of that
value are an initial segment of that value's entries in input order.  On
15 distinct values it returns exactly 10. -/
theorem top10_selection_spec :
    (∀ (α : Type) (key : α → ℚ) (l : List α),
      (pyTop10 key l).length = min 10 l.length
      ∧ (∃ rest, (pyTop10 key l ++ rest).Perm l)
      ∧ List.Pairwise (fun a b => key b ≤ key a) (pyTop10 key l)
      ∧ (∀ v : ℚ, ∃ t2, (pyTop10 key l).filter (fun a => decide (key a = v)) ++ t2 =
          l.filter (fun a => decide (key a = v))))
    ∧ (top10Base ((List.range 15).map (fun (i : ℕ) => ((i : ℚ), 1)))).length = 10 := by
  have hgen : ∀ (α : Type) (key : α → ℚ) (l : List α),
      (pyTop10 key l).length = min 10 l.length
      ∧ (∃ rest, (pyTop10 key l ++ rest).Perm l)
      ∧ List.Pairwise (fun a b => key b ≤ key a) (pyTop10 key l)
      ∧ (∀ v : ℚ, ∃ t2, (pyTop10 key l).filter (fun a => decide (key a = v)) ++ t2 =
          l.filter (fun a => decide (key a = v))) := by
    intro α key l
    refine ⟨?_, ?_, ?_, ?_⟩
    · rw [pyTop10, List.length_take, sortDescBy_length]
    · refine ⟨(sortDescBy key l).drop 10, ?_⟩
      rw [pyTop10, List.take_append_drop]
      exact sortDescBy_perm key l
    · exact List.Pairwise.sublist (List.take_sublist 10 _) (sortDescBy_pairwise key l)
    · intro v
      refine ⟨((sortDescBy key l).drop 10).filter (fun a => decide (key a = v)), ?_⟩
      rw [pyTop10, ← List.filter_append, List.take_append_drop, sortDescBy_filter]
  refine ⟨hgen, ?_⟩
  have h := (hgen (ℚ × ℕ) (fun x => x.1) ((List.range 15).map (fun (i : ℕ) => ((i : ℚ), 1)))).1
  have hlen : ((List.range 15).map (fun (i : ℕ) => ((i : ℚ), (1 : ℕ)))).length = 15 := by
    rw [List.length_map, List.length_range]
  rw [top10Base, h, hlen]
  rfl

/-! ### Lemmas for the maximum selectors (C6)

Python's `max` keeps the first of equal-key elements; the lemmas below pin
the returned element down as the first occurrence of the maximal key. -/

theorem pyMax_eq_none {α : Type} (key : α → ℚ) {l : List α} :
    pyMax key l = none ↔ l = [] := by
  cases l with
  | nil => simp [pyMax]
  | cons x xs => simp [pyMax]

theorem pyMax1_some {α : Type} (key : α → ℚ) :
    ∀ (l : List α) (r : α), pyMax key l = some r →
      ∀ x, pyMax1 key x l = if key x < key r then r else x := by
  intro l
  induction l with
  | nil => intro r h; exact absurd h (by simp [pyMax])
  | cons y ys ih =>
    intro r h x
    rw [pyMax] at h
    injection h with h
    rw [pyMax1]
    cases hys : pyMax key ys with
    | none =>
      have hnil : ys = [] := (pyMax_eq_none key).mp hys
      subst hnil
      rw [pyMax1] at h
      subst h
      rfl
    | some c =>
      rw [ih c hys y] at h
      rw [ih c hys (if key x < key y then y else x)]
      subst h
      by_cases hxy : key x < key y
      · rw [if_pos hxy]
        by_cases hyc : key y < key c
        · rw [if_pos hyc, if_pos (lt_trans hxy hyc)]
        · rw [if_neg hyc, if_pos hxy]
      · rw [if_neg hxy]
        by_cases hyc : key y < key c
        · rw [if_pos hyc]
        · rw [if_neg hyc, if_neg hxy,
            if_neg (not_lt.mpr (le_trans (le_of_not_lt hyc) (le_of_not_lt hxy)))]

theorem pyMax1_split {α : Type} (key : α → ℚ) :
    ∀ (l : List α) (x : α),
      (key x ≤ key (pyMax1 key x l) ∧ ∀ a ∈ l, key a ≤ key (pyMax1 key x l))
      ∧ (pyMax1 key x l = x ∨
        ∃ l1 l2, l = l1 ++ pyMax1 key x l :: l2 ∧ key x < key (pyMax1 key x l)
          ∧ ∀ a ∈ l1, key a < key (pyMax1 key x l)) := by
  intro l
  induction l with
  | nil =>
    intro x
    exact ⟨⟨le_refl _, by simp⟩, Or.inl rfl⟩
  | cons y ys ih =>
    intro x
    rw [pyMax1]
    obtain ⟨⟨hzle, hall⟩, hsplit⟩ := ih (if key x < key y then y else x)
    have hxz : key x ≤ key (if key x < key y then y else x) := by
      by_cases hxy : key x < key y
      · rw [if_pos hxy]; exact le_of_lt hxy
      · rw [if_neg hxy]
    have hyz : key y ≤ key (if key x < key y then y else x) := by
      by_cases hxy : key x < key y
      · rw [if_pos hxy]
      · rw [if_neg hxy]; exact le_of_not_lt hxy
    refine ⟨⟨le_trans hxz hzle, ?_⟩, ?_⟩
    · intro a ha
      rcases List.mem_cons.mp ha with ha | ha
      · subst ha; exact le_trans hyz hzle
      · exact hall a ha
    · rcases hsplit with heq | ⟨l1, l2, hys, hlt, hl1⟩
      · by_cases hxy : key x < key y
        · refine Or.inr ⟨[], ys, ?_, ?_, by simp⟩
          · rw [List.nil_append, heq, if_pos hxy]
          · rw [heq, if_pos hxy]
            exact hxy
        · left
          rw [heq, if_neg hxy]
      · refine Or.inr ⟨y :: l1, l2, ?_, ?_, ?_⟩
        · rw [List.cons_append, ← hys]
        · exact lt_of_le_of_lt hxz hlt
        · intro a ha
          rcases List.mem_cons.mp ha with ha | ha
          · subst ha; exact lt_of_le_of_lt hyz hlt
          · exact hl1 a ha

theorem pyMax_split {α : Type} {key : α → ℚ} {l : List α} {r : α} (h : pyMax key l = some r) :
    ∃ l1 l2, l = l1 ++ r :: l2 ∧ (∀ a ∈ l1, key a < key r) ∧ ∀ a ∈ l, key a ≤ key r := by
  cases l with
  | nil => exact absurd h (by simp [pyMax])
  | cons x xs =>
    rw [pyMax] at h
    injection h with h
    obtain ⟨⟨hxle, hall⟩, hsplit⟩ := pyMax1_split key xs x
    rw [h] at hxle hall hsplit
    have hallcons : ∀ a ∈ x :: xs, key a ≤ key r := by
      intro a ha
      rcases List.mem_cons.mp ha with ha | ha
      · subst ha; exact hxle
      · exact hall a ha
    rcases hsplit with heq | ⟨l1, l2, hxs, hlt, hl1⟩
    · exact ⟨[], xs, by rw [List.nil_append, heq], by simp, hallcons⟩
    · refine ⟨x :: l1, l2, by rw [List.cons_append, ← hxs], ?_, hallcons⟩
      intro a ha
      rcases List.mem_cons.mp ha with ha | ha
      · subst ha; exact hlt
      · exact hl1 a ha

theorem pyMax_mem {α : Type} {key : α → ℚ} {l : List α} {r : α} (h : pyMax key l = some r) :
    r ∈ l := by
  obtain ⟨l1, l2, hl, -, -⟩ := pyMax_split h
  rw [hl]
  exact List.mem_append.mpr (Or.inr (List.mem_cons_self _ _))

theorem pyMax_le {α : Type} {key : α → ℚ} {l : List α} {r : α} (h : pyMax key l = some r) :
    ∀ a ∈ l, key a ≤ key r := by
  obtain ⟨-, -, -, -, hle⟩ := pyMax_split h
  exact hle

theorem pyMax_complete {α : Type} (key : α → ℚ) :
    ∀ (l1 : List α) (r : α) (l2 : List α),
      (∀ a ∈ l1, key a < key r) → (∀ a ∈ l2, key a ≤ key r) →
      pyMax key (l1 ++ r :: l2) = some r := by
  intro l1
  induction l1 with
  | nil =>
    intro r l2 h1 h2
    rw [List.nil_append, pyMax]
    congr 1
    cases hl2 : pyMax key l2 with
    | none =>
      have : l2 = [] := (pyMax_eq_none key).mp hl2
      subst this
      rfl
    | some c =>
      rw [pyMax1_some key l2 c hl2 r, if_neg (not_lt.mpr (h2 c (pyMax_mem hl2)))]
  | cons a t ih =>
    intro r l2 h1 h2
    rw [List.cons_append, pyMax]
    congr 1
    have hmax : pyMax key (t ++ r :: l2) = some r :=
      ih r l2 (fun b hb => h1 b (List.mem_cons_of_mem a hb)) h2
    rw [pyMax1_some key _ r hmax a, if_pos (h1 a (List.mem_cons_self a t))]

theorem nlpFlat_cons (pr : ℕ × List NRec) (rest : List (ℕ × List NRec)) :
    nlpFlat (pr :: rest) = pr.2.map (fun r => (r, pr.1)) ++ nlpFlat rest := by
  rw [nlpFlat, List.map_cons, List.flatten_cons]
  rfl

theorem nlpFlat_mem_of {pr : ℕ × List NRec} {res : List (ℕ × List NRec)} (hpr : pr ∈ res)
    {y : NRec} (hy : y ∈ pr.2) : (y, pr.1) ∈ nlpFlat res := by
  rw [nlpFlat]
  exact List.mem_flatten.mpr ⟨pr.2.map (fun r => (r, pr.1)),
    List.mem_map.mpr ⟨pr, hpr, rfl⟩, List.mem_map.mpr ⟨y, hy, rfl⟩⟩

theorem mem_nlpFlat {res : List (ℕ × List NRec)} {y : NRec} {q : ℕ}
    (h : (y, q) ∈ nlpFlat res) : ∃ pr ∈ res, pr.1 = q ∧ y ∈ pr.2 := by
  rw [nlpFlat] at h
  obtain ⟨s, hs, hys⟩ := List.mem_flatten.mp h
  obtain ⟨pr, hpr, hmap⟩ := List.mem_map.mp hs
  rw [← hmap] at hys
  obtain ⟨r, hr, hry⟩ := List.mem_map.mp hys
  rw [Prod.mk.injEq] at hry
  exact ⟨pr, hpr, hry.2, hry.1 ▸ hr⟩

theorem pageMaxima_cons_empty {pr : ℕ × List NRec} (h : pr.2.isEmpty = true)
    (rest : List (ℕ × List NRec)) : pageMaxima (pr :: rest) = pageMaxima rest := by
  rw [pageMaxima, List.filterMap_cons_none (by rw [if_pos h])]
  rfl

theorem pageMaxima_cons_some {pr : ℕ × List NRec} {m : NRec} (hne : ¬ pr.2.isEmpty = true)
    (hm : pyMax (fun r => r.scaled) pr.2 = some m) (rest : List (ℕ × List NRec)) :
    pageMaxima (pr :: rest) = m :: pageMaxima rest := by
  rw [pageMaxima, List.filterMap_cons_some (by rw [if_neg hne, hm])]
  rfl

theorem pageMaxima_nil_flat : ∀ {res : List (ℕ × List NRec)},
    pageMaxima res = [] → nlpFlat res = [] := by
  intro res
  induction res with
  | nil => intro _; rfl
  | cons pr rest ih =>
    intro h
    by_cases hq : pr.2.isEmpty
    · rw [pageMaxima_cons_empty hq] at h
      rw [nlpFlat_cons, List.isEmpty_iff.mp hq, List.map_nil, List.nil_append]
      exact ih h
    · cases hpm : pyMax (fun r => r.scaled) pr.2 with
      | none =>
        rw [pyMax_eq_none] at hpm
        exact absurd (List.isEmpty_iff.mpr hpm) hq
      | some m =>
        rw [pageMaxima_cons_some hq hpm] at h
        exact absurd h (by simp)

theorem mem_pageMaxima {res : List (ℕ × List NRec)} {m : NRec} (h : m ∈ pageMaxima res) :
    ∃ pr, pr ∈ res ∧ pyMax (fun r => r.scaled) pr.2 = some m := by
  rw [pageMaxima] at h
  obtain ⟨pr, hpr, hf⟩ := List.mem_filterMap.mp h
  split at hf
  · exact absurd hf (by simp)
  · exact ⟨pr, hpr, hf⟩

theorem pageMaxima_sub_flat {res : List (ℕ × List NRec)} {m : NRec}
    (h : m ∈ pageMaxima res) : ∃ q, (m, q) ∈ nlpFlat res := by
  obtain ⟨pr, hpr, hm⟩ := mem_pageMaxima h
  exact ⟨pr.1, nlpFlat_mem_of hpr (pyMax_mem hm)⟩

theorem nlpFlat_bound {res : List (ℕ × List NRec)} {B : ℚ}
    (h : ∀ c ∈ pageMaxima res, c.scaled ≤ B) :
    ∀ y ∈ nlpFlat res, y.1.scaled ≤ B := by
  rintro ⟨rec, q⟩ hy
  obtain ⟨pr, hpr, -, hrec⟩ := mem_nlpFlat hy
  cases hpm : pyMax (fun r => r.scaled) pr.2 with
  | none =>
    rw [pyMax_eq_none] at hpm
    rw [hpm] at hrec
    simp at hrec
  | some m =>
    have hq : ¬ pr.2.isEmpty = true := by
      intro hemp
      rw [List.isEmpty_iff.mp hemp] at hrec
      simp at hrec
    have hmem : m ∈ pageMaxima res := by
      rw [pageMaxima]
      exact List.mem_filterMap.mpr ⟨pr, hpr, by rw [if_neg hq, hpm]⟩
    exact le_trans (pyMax_le hpm rec hrec) (h m hmem)

/-- The contextual selector returns the first record attaining the
maximum scaled value across the flattened page results, with its page. -/
theorem find_largest_nlp_spec :
    ∀ (res : List (ℕ × List NRec)), nlpFlat res ≠ [] →
      ∃ f1 r p f2, nlpFlat res = f1 ++ (r, p) :: f2
        ∧ find_largest_nlp_number res = some (r, p)
        ∧ (∀ y ∈ f1, y.1.scaled < r.scaled)
        ∧ (∀ y ∈ nlpFlat res, y.1.scaled ≤ r.scaled) := by
  intro res
  induction res with
  | nil => intro h; exact absurd rfl h
  | cons pr rest ih =>
    intro hne
    rw [nlpFlat_cons] at hne ⊢
    by_cases hq : pr.2.isEmpty
    · -- a page with no records: both the flattening and the selector skip it
      have hpr2 : pr.2 = [] := List.isEmpty_iff.mp hq
      rw [hpr2] at hne ⊢
      simp only [List.map_nil, List.nil_append] at hne ⊢
      have hrestne : ¬ rest.isEmpty = true := by
        intro hre
        rw [List.isEmpty_iff.mp hre] at hne
        exact hne rfl
      obtain ⟨f1, r, p, f2, hsplit, hres, hstrict, hall⟩ := ih hne
      refine ⟨f1, r, p, f2, hsplit, ?_, hstrict, hall⟩
      rw [find_largest_nlp_number, if_neg (by simp), pageMaxima_cons_empty hq]
      rw [find_largest_nlp_number, if_neg hrestne] at hres
      cases hout : pyMax (fun r => r.scaled) (pageMaxima rest) with
      | none => rw [hout] at hres; simp at hres
      | some largest =>
        rw [hout] at hres
        dsimp only at hres ⊢
        have hfind : List.find? (fun x => decide (largest ∈ x.2)) (pr :: rest) =
            List.find? (fun x => decide (largest ∈ x.2)) rest := by
          rw [List.find?_cons_of_neg]
          simp [hpr2]
        rw [hfind]
        exact hres
    · -- a page with records: its first maximum m competes with the rest
      have hpr2ne : pr.2 ≠ [] := fun h0 => hq (List.isEmpty_iff.mpr h0)
      cases hpm : pyMax (fun r => r.scaled) pr.2 with
      | none => exact absurd ((pyMax_eq_none _).mp hpm) hpr2ne
      | some m =>
        obtain ⟨a1, a2, hrecs, ha1, hrall⟩ := pyMax_split hpm
        cases hout : pyMax (fun r => r.scaled) (pageMaxima rest) with
        | none =>
          have hflat : nlpFlat rest = [] := pageMaxima_nil_flat ((pyMax_eq_none _).mp hout)
          have houter : pyMax (fun r => r.scaled) (pageMaxima (pr :: rest)) = some m := by
            rw [pageMaxima_cons_some hq hpm, (pyMax_eq_none _).mp hout]
            rfl
          refine ⟨a1.map (fun r => (r, pr.1)), m, pr.1,
            a2.map (fun r => (r, pr.1)) ++ nlpFlat rest, ?_, ?_, ?_, ?_⟩
          · rw [hrecs, List.map_append, List.map_cons, List.append_assoc, List.cons_append]
          · rw [find_largest_nlp_number, if_neg (by simp), houter]
            dsimp only
            have hfind : List.find? (fun x => decide (m ∈ x.2)) (pr :: rest) = some pr := by
              rw [List.find?_cons_of_pos]
              simpa using pyMax_mem hpm
            rw [hfind]
          · intro y hy
            obtain ⟨r', hr', hry⟩ := List.mem_map.mp hy
            rw [← hry]
            exact ha1 r' hr'
          · intro y hy
            rcases List.mem_append.mp hy with hy | hy
            · obtain ⟨r', hr', hry⟩ := List.mem_map.mp hy
              rw [← hry]
              exact hrall r' hr'
            · rw [hflat] at hy
              simp at hy
        | some c =>
          have hrestne : ¬ rest.isEmpty = true := by
            intro hre
            rw [List.isEmpty_iff.mp hre] at hout
            rw [show pageMaxima ([] : List (ℕ × List NRec)) = [] from rfl] at hout
            simp [pyMax] at hout
          by_cases hmc : m.scaled < c.scaled
          · -- a later page strictly beats this one
            have houter : pyMax (fun r => r.scaled) (pageMaxima (pr :: rest)) = some c := by
              rw [pageMaxima_cons_some hq hpm, pyMax]
              congr 1
              rw [pyMax1_some _ _ c hout m, if_pos hmc]
            have hcnotin : ¬ (decide (c ∈ pr.2) = true) := by
              simp only [decide_eq_true_eq]
              intro hcin
              exact absurd (hrall c hcin) (not_le.mpr hmc)
            have hflatne : nlpFlat rest ≠ [] := by
              obtain ⟨q, hq'⟩ := pageMaxima_sub_flat (pyMax_mem hout)
              intro h0
              rw [h0] at hq'
              simp at hq'
            obtain ⟨f1, r, p, f2, hsplit, hres, hstrict, hall⟩ := ih hflatne
            have hcler : c.scaled ≤ r.scaled := by
              obtain ⟨q, hq'⟩ := pageMaxima_sub_flat (pyMax_mem hout)
              exact hall (c, q) hq'
            refine ⟨pr.2.map (fun r => (r, pr.1)) ++ f1, r, p, f2, ?_, ?_, ?_, ?_⟩
            · rw [hsplit, List.append_assoc]
            · rw [find_largest_nlp_number, if_neg (by simp), houter]
              dsimp only
              have hfind : List.find? (fun x => decide (c ∈ x.2)) (pr :: rest) =
                  List.find? (fun x => decide (c ∈ x.2)) rest := by
                rw [List.find?_cons_of_neg]
                exact hcnotin
              rw [hfind]
              rw [find_largest_nlp_number, if_neg hrestne, hout] at hres
              dsimp only at hres
              exact hres
            · intro y hy
              rcases List.mem_append.mp hy with hy | hy
              · obtain ⟨r', hr', hry⟩ := List.mem_map.mp hy
                rw [← hry]
                exact lt_of_le_of_lt (hrall r' hr') (lt_of_lt_of_le hmc hcler)
              · exact hstrict y hy
            · intro y hy
              rcases List.mem_append.mp hy with hy | hy
              · obtain ⟨r', hr', hry⟩ := List.mem_map.mp hy
                rw [← hry]
                exact le_trans (hrall r' hr') (le_trans (le_of_lt hmc) hcler)
              · exact hall y hy
          · -- this page's maximum stands (ties keep the earlier page)
            have houter : pyMax (fun r => r.scaled) (pageMaxima (pr :: rest)) = some m := by
              rw [pageMaxima_cons_some hq hpm, pyMax]
              congr 1
              rw [pyMax1_some _ _ c hout m, if_neg hmc]
            have hrestle : ∀ y ∈ nlpFlat rest, y.1.scaled ≤ m.scaled := by
              refine nlpFlat_bound ?_
              intro c' hc'
              exact le_trans (pyMax_le hout c' hc') (le_of_not_lt hmc)
            refine ⟨a1.map (fun r => (r, pr.1)), m, pr.1,
              a2.map (fun r => (r, pr.1)) ++ nlpFlat rest, ?_, ?_, ?_, ?_⟩
            · rw [hrecs, List.map_append, List.map_cons, List.append_assoc, List.cons_append]
            · rw [find_largest_nlp_number, if_neg (by simp), houter]
              dsimp only
              have hfind : List.find? (fun x => decide (m ∈ x.2)) (pr :: rest) = some pr := by
                rw [List.find?_cons_of_pos]
                simpa using pyMax_mem hpm
              rw [hfind]
            · intro y hy
              obtain ⟨r', hr', hry⟩ := List.mem_map.mp hy
              rw [← hry]
              exact ha1 r' hr'
            · intro y hy
              rcases List.mem_append.mp hy with hy | hy
              · obtain ⟨r', hr', hry⟩ := List.mem_map.mp hy
                rw [← hry]
                exact hrall r' hr'
              · exact hrestle y hy

/-- The base selector returns the first pair attaining the maximum value. -/
theorem find_largest_number_spec :
    ∀ (l : List (ℚ × ℕ)), l ≠ [] →
      ∃ l1 v p l2, l = l1 ++ (v, p) :: l2 ∧ find_largest_number l = some (v, p)
        ∧ (∀ y ∈ l1, y.1 < v) ∧ (∀ y ∈ l, y.1 ≤ v) := by
  intro l hl
  have hne : ¬ l.isEmpty = true := fun h => hl (List.isEmpty_iff.mp h)
  cases hmax : pyMax (fun x => x.1) l with
  | none => exact absurd ((pyMax_eq_none _).mp hmax) hl
  | some r =>
    obtain ⟨l1, l2, hsplit, hstrict, hall⟩ := pyMax_split hmax
    exact ⟨l1, r.1, r.2, l2, by rw [hsplit],
      by rw [find_largest_number, if_neg hne, hmax], hstrict, hall⟩

/-- C6.  Both selectors return the maximum under their value field with
ties broken by first occurrence: the base selector returns the element of
the input list that first attains the maximal value, and the contextual
selector returns the record of the page-ordered flattening that first
attains the maximal scaled value, together with its page.  In the
two-page scenario with base maxima 999.99 (page 1) and 1000.00 (page 2)
the base selector returns `(1000.00, page 2)`. -/
theorem selectors_pick_first_maximum :
    (∀ l : List (ℚ × ℕ), l ≠ [] →
      ∃ l1 v p l2, l = l1 ++ (v, p) :: l2 ∧ find_largest_number l = some (v, p)
        ∧ (∀ y ∈ l1, y.1 < v) ∧ (∀ y ∈ l, y.1 ≤ v))
    ∧ (∀ res : List (ℕ × List NRec), nlpFlat res ≠ [] →
      ∃ f1 r p f2, nlpFlat res = f1 ++ (r, p) :: f2
        ∧ find_largest_nlp_number res = some (r, p)
        ∧ (∀ y ∈ f1, y.1.scaled < r.scaled)
        ∧ (∀ y ∈ nlpFlat res, y.1.scaled ≤ r.scaled))
    ∧ find_largest_number [(99999/100, 1), (1000, 2)] = some (1000, 2) := by
  refine ⟨find_largest_number_spec, find_largest_nlp_spec, ?_⟩
  rw [find_largest_number, if_neg (by simp)]
  norm_num [pyMax, pyMax1]

/-- C6 witness: both selector characterizations instantiated on concrete
non-empty inputs. -/
theorem selectors_pick_first_maximum_witness :
    (∃ l1 v p l2, ([((3 : ℚ), (1 : ℕ)), (5, 2)]) = l1 ++ (v, p) :: l2
        ∧ find_largest_number [((3 : ℚ), (1 : ℕ)), (5, 2)] = some (v, p)
        ∧ (∀ y ∈ l1, y.1 < v) ∧ (∀ y ∈ [((3 : ℚ), (1 : ℕ)), (5, 2)], y.1 ≤ v))
    ∧ (∃ f1 r p f2, nlpFlat [((1 : ℕ), [(⟨2, 6, "N/A", 0⟩ : NRec)])] = f1 ++ (r, p) :: f2
        ∧ find_largest_nlp_number [((1 : ℕ), [(⟨2, 6, "N/A", 0⟩ : NRec)])] = some (r, p)
        ∧ (∀ y ∈ f1, y.1.scaled < r.scaled)
        ∧ (∀ y ∈ nlpFlat [((1 : ℕ), [(⟨2, 6, "N/A", 0⟩ : NRec)])], y.1.scaled ≤ r.scaled)) :=
  ⟨selectors_pick_first_maximum.1 _ (by decide),
   selectors_pick_first_maximum.2.1 _ (by decide)⟩

end PdfNums
